import Mathlib

/-!
Verification development for the sampling utilities of `datatools-bdh`
(`datatools_bdh.sampler`): the bounded rejection sampler
(`make_sample_bounded` and its per-distribution wrappers
`make_normal_bounded`, `make_power_bounded`, `make_exponential_bounded`)
and the inverse-transform sampler class `ITFSampler`.

The sampler module itself is not part of the shipped sources (the notebook
`examples/generate_sample.ipynb` only imports and calls it), so the
definitions below are modelled from the specification: reals are embedded
as rationals, the process-wide random-number generator is passed
explicitly as a stream `ℕ → ℚ` of raw draws from the base distribution,
and fallible operations return `Except`.
-/

namespace DatatoolsBdh

/-- Errors surfaced by the sampling utilities: invalid interval
(`lower >= upper`), rejection sampling that exhausted its bounded retry
budget, and invalid ITF input (probability outside `[0,1]` or a CDF that
is undefined / non-finite on the grid). -/
inductive SamplerError where
  | invalidArgument
  | exhaustedRetries
  | invalidInput
  deriving DecidableEq, Repr

/-- Modelled from the spec: one oversampling loop of the bounded rejection
sampler (missing module `datatools_bdh.sampler`). Each round draws
`oversample * nsamples` raw values from the base-distribution stream
`source`, keeps those inside `[lower, upper]`, and accumulates them; it
stops with the first `nsamples` accepted values, or fails with an
exhausted-retries error once the bounded number of rounds is used up. -/
def boundedLoop (source : ℕ → ℚ) (lower upper : ℚ) (nsamples oversample : ℕ) :
    ℕ → ℕ → List ℚ → Except SamplerError (List ℚ)
  | 0, _, _ => .error .exhaustedRetries
  | fuel + 1, pos, acc =>
    let raw := (List.range (oversample * nsamples)).map (fun i => source (pos + i))
    let acc' := acc ++ raw.filter (fun v => decide (lower ≤ v ∧ v ≤ upper))
    if nsamples ≤ acc'.length then .ok (acc'.take nsamples)
    else boundedLoop source lower upper nsamples oversample fuel (pos + oversample * nsamples) acc'

/-- Modelled from the spec: the bounded rejection sampler
`make_sample_bounded` of the missing module `datatools_bdh.sampler`.
It rejects an invalid interval (`lower >= upper`) up front with an
invalid-argument error and otherwise runs at most `maxRetries`
oversampling rounds. -/
def make_sample_bounded (source : ℕ → ℚ) (lower upper : ℚ)
    (nsamples oversample maxRetries : ℕ) : Except SamplerError (List ℚ) :=
  if upper ≤ lower then .error .invalidArgument
  else boundedLoop source lower upper nsamples oversample maxRetries 0 []

/-- Modelled from the spec: `make_normal_bounded` of the missing module
`datatools_bdh.sampler`. The Gaussian shape parameter `sigma`
parameterizes the base distribution, whose raw draws are abstracted by
the explicit stream `source`. -/
def make_normal_bounded (source : ℕ → ℚ) (lower upper : ℚ)
    (nsamples oversample maxRetries : ℕ) (sigma : ℚ) : Except SamplerError (List ℚ) :=
  make_sample_bounded source lower upper nsamples oversample maxRetries

/-- Modelled from the spec: `make_power_bounded` of the missing module
`datatools_bdh.sampler`, with power-law shape parameter `a`. -/
def make_power_bounded (source : ℕ → ℚ) (lower upper : ℚ)
    (nsamples oversample maxRetries : ℕ) (a : ℚ) : Except SamplerError (List ℚ) :=
  make_sample_bounded source lower upper nsamples oversample maxRetries

/-- Modelled from the spec: `make_exponential_bounded` of the missing
module `datatools_bdh.sampler`, with exponential scale parameter. -/
def make_exponential_bounded (source : ℕ → ℚ) (lower upper : ℚ)
    (nsamples oversample maxRetries : ℕ) (scale : ℚ) : Except SamplerError (List ℚ) :=
  make_sample_bounded source lower upper nsamples oversample maxRetries

/-- Modelled from the spec: an arbitrary continuous distribution object
(as accepted by the missing `datatools_bdh.sampler.ITFSampler`), exposing
a CDF taking the shape parameter and an evaluation point (`none` models
an undefined or non-finite CDF value) over an effective support
`[supportLo, supportHi]`. -/
structure Distribution where
  cdf : ℚ → ℚ → Option ℚ
  supportLo : ℚ
  supportHi : ℚ

/-- `n` equally spaced grid points from `lo` to `hi` (the `np.linspace`
grid used by the ITF sampler's construction). -/
def linspace (lo hi : ℚ) (n : ℕ) : List ℚ :=
  (List.range n).map (fun i : ℕ => lo + (hi - lo) * (i : ℚ) / ((n : ℚ) - 1))

/-- Collects a list of optional CDF values, failing as soon as one
evaluation was undefined / non-finite. -/
def seqOptions : List (Option ℚ) → Option (List ℚ)
  | [] => some []
  | none :: _ => none
  | some v :: rest =>
    match seqOptions rest with
    | none => none
    | some vs => some (v :: vs)

/-- Modelled from the spec: the state of the missing
`datatools_bdh.sampler.ITFSampler` — the domain grid `x`, the probability
grid `x0`, the precomputed CDF lookup table, the shape parameter `b` and
the grid resolution `cdf_nsteps`. -/
structure ITFSampler where
  x : List ℚ
  x0 : List ℚ
  cdfTable : List ℚ
  b : ℚ
  cdf_nsteps : ℕ
  deriving DecidableEq, Repr

/-- Modelled from the spec: construction of the missing
`datatools_bdh.sampler.ITFSampler`. It lays a `cdf_nsteps`-point grid over
the distribution's effective support, evaluates the CDF at every grid
point to build the lookup table, and fails with an invalid-input error if
the CDF is undefined / non-finite at any grid point. -/
def ITFSampler.make (d : Distribution) (b : ℚ) (cdf_nsteps : ℕ) :
    Except SamplerError ITFSampler :=
  let xs := linspace d.supportLo d.supportHi cdf_nsteps
  match seqOptions (xs.map (d.cdf b)) with
  | none => .error .invalidInput
  | some table => .ok ⟨xs, linspace 0 1 cdf_nsteps, table, b, cdf_nsteps⟩

/-- Piecewise-linear inverse lookup through the table `t` of CDF values
against the domain grid `x` (the `np.interp(p, t, x)` evaluation used by
the ITF sampler's invocation): probabilities at or below the first table
entry clamp to the first grid point, probabilities above every table
entry clamp to the last grid point, and a probability strictly inside a
bracketing table segment is mapped by linear interpolation. -/
def interpTwo (p : ℚ) : List ℚ → List ℚ → ℚ
  | [_], [xv] => xv
  | f1 :: f2 :: fs, x1 :: x2 :: xs =>
    if p ≤ f1 then x1
    else if p < f2 then x1 + (x2 - x1) * (p - f1) / (f2 - f1)
    else interpTwo p (f2 :: fs) (x2 :: xs)
  | _, _ => 0

/-- Modelled from the spec: invocation of the missing
`datatools_bdh.sampler.ITFSampler` on a single probability value. A
probability outside `[0, 1]` fails with an invalid-input error; otherwise
the corresponding domain value is produced by inverse CDF lookup. -/
def ITFSampler.call (s : ITFSampler) (p : ℚ) : Except SamplerError ℚ :=
  if p < 0 ∨ 1 < p then .error .invalidInput
  else .ok (interpTwo p s.cdfTable s.x)

/-- Modelled from the spec: invocation viewed as a state transformer,
returning the computed value together with the sampler state after the
call (the spec stipulates invocation has no side effects, so the state
after the call is rebuilt from exactly the fields of the state before). -/
def ITFSampler.invoke (s : ITFSampler) (p : ℚ) :
    Except SamplerError ℚ × ITFSampler :=
  (s.call p,
   { x := s.x, x0 := s.x0, cdfTable := s.cdfTable, b := s.b,
     cdf_nsteps := s.cdf_nsteps })

/-- Modelled from the spec: invocation of the missing
`datatools_bdh.sampler.ITFSampler` on a sequence of probability values,
returning one domain value per input. -/
def ITFSampler.callList (s : ITFSampler) : List ℚ → Except SamplerError (List ℚ)
  | [] => .ok []
  | p :: ps =>
    match s.call p, s.callList ps with
    | .ok v, .ok vs => .ok (v :: vs)
    | .error e, _ => .error e
    | .ok _, .error e => .error e

/-- Concrete distribution used by the evaluation witnesses: the identity
CDF on the support `[0, 1]`. -/
def demoDist : Distribution :=
  ⟨fun _ t => some t, 0, 1⟩

/-- Concrete sampler state used by the evaluation witnesses: the result of
constructing an ITF sampler from `demoDist` on a three-point grid. -/
def demoSampler : ITFSampler :=
  ⟨[0, 1/2, 1], [0, 1/2, 1], [0, 1/2, 1], 1, 3⟩

/-- Concrete distribution whose CDF is nowhere defined / non-finite, used
to evaluate the construction-failure path. -/
def noneDist : Distribution :=
  ⟨fun _ _ => none, 0, 1⟩

example : ITFSampler.make demoDist 1 3 = .ok demoSampler := by
  norm_num [ITFSampler.make, linspace, seqOptions, List.range_succ, demoDist, demoSampler]

example : demoSampler.call 0 = .ok 0 := by
  norm_num [ITFSampler.call, demoSampler, interpTwo]
example : demoSampler.call 1 = .ok 1 := by
  norm_num [ITFSampler.call, demoSampler, interpTwo]
example : demoSampler.call (1/4) = .ok (1/4) := by
  norm_num [ITFSampler.call, demoSampler, interpTwo]
example : demoSampler.call 2 = .error .invalidInput := by
  norm_num [ITFSampler.call]
example : demoSampler.callList [0, 1/2, 1] = .ok [0, 1/2, 1] := by
  norm_num [ITFSampler.callList, ITFSampler.call, demoSampler, interpTwo]
example : ITFSampler.make ⟨fun _ _ => none, 0, 1⟩ 1 2 = .error .invalidInput := by
  norm_num [ITFSampler.make, linspace, seqOptions, List.range_succ]

example :
    make_sample_bounded (fun _ => 0) (-1) 1 2 1 1 = .ok [0, 0] := by
  rfl

example :
    make_sample_bounded (fun _ => 5) 0 1 1 1 2 = .error .exhaustedRetries := by
  rfl

example :
    make_sample_bounded (fun _ => 0) 1 0 2 1 1 = .error .invalidArgument := by
  rfl

theorem mem_append_filter_bounds (lower upper : ℚ) (acc raw : List ℚ)
    (hacc : ∀ v ∈ acc, lower ≤ v ∧ v ≤ upper) :
    ∀ v ∈ acc ++ raw.filter (fun v => decide (lower ≤ v ∧ v ≤ upper)),
      lower ≤ v ∧ v ≤ upper := by
  intro v hv
  rcases List.mem_append.mp hv with h | h
  · exact hacc v h
  · exact of_decide_eq_true (List.mem_filter.mp h).2

theorem boundedLoop_ok (source : ℕ → ℚ) (lower upper : ℚ)
    (nsamples oversample fuel : ℕ) :
    ∀ (pos : ℕ) (acc : List ℚ), (∀ v ∈ acc, lower ≤ v ∧ v ≤ upper) →
    ∀ s, boundedLoop source lower upper nsamples oversample fuel pos acc = .ok s →
      s.length = nsamples ∧ ∀ v ∈ s, lower ≤ v ∧ v ≤ upper := by
  induction fuel with
  | zero => intro pos acc _ s hs; simp [boundedLoop] at hs
  | succ fuel ih =>
    intro pos acc hacc s hs
    simp only [boundedLoop] at hs
    split at hs
    case isTrue hlen =>
      injection hs with hs'
      subst hs'
      constructor
      · rw [List.length_take]
        exact Nat.min_eq_left hlen
      · intro v hv
        exact mem_append_filter_bounds lower upper acc _ hacc v
          (List.mem_of_mem_take hv)
    case isFalse hlen =>
      exact ih _ _ (mem_append_filter_bounds lower upper acc _ hacc) s hs

theorem make_sample_bounded_ok (source : ℕ → ℚ) (lower upper : ℚ)
    (nsamples oversample maxRetries : ℕ) (s : List ℚ)
    (hs : make_sample_bounded source lower upper nsamples oversample maxRetries = .ok s) :
    s.length = nsamples ∧ ∀ v ∈ s, lower ≤ v ∧ v ≤ upper := by
  rw [make_sample_bounded] at hs
  split at hs
  · exact absurd hs (by simp)
  · exact boundedLoop_ok source lower upper nsamples oversample maxRetries 0 []
      (by simp) s hs

/-- C1: For every valid input with `lower < upper` and positive `nsamples`,
each bounded sampler (`make_normal_bounded`, `make_power_bounded`,
`make_exponential_bounded`) that returns a sequence returns one of exactly
`nsamples` values, every value `v` of which satisfies
`lower ≤ v ∧ v ≤ upper`. -/
theorem C1_bounded_sampler_length_and_bounds
    (source : ℕ → ℚ) (lower upper sigma a scale : ℚ)
    (nsamples oversample maxRetries : ℕ) (sN sP sE : List ℚ)
    (hlt : lower < upper) (hpos : 0 < nsamples)
    (hN : make_normal_bounded source lower upper nsamples oversample maxRetries sigma
          = .ok sN)
    (hP : make_power_bounded source lower upper nsamples oversample maxRetries a
          = .ok sP)
    (hE : make_exponential_bounded source lower upper nsamples oversample maxRetries scale
          = .ok sE) :
    (sN.length = nsamples ∧ ∀ v ∈ sN, lower ≤ v ∧ v ≤ upper) ∧
    (sP.length = nsamples ∧ ∀ v ∈ sP, lower ≤ v ∧ v ≤ upper) ∧
    (sE.length = nsamples ∧ ∀ v ∈ sE, lower ≤ v ∧ v ≤ upper) :=
  ⟨make_sample_bounded_ok source lower upper nsamples oversample maxRetries sN hN,
   make_sample_bounded_ok source lower upper nsamples oversample maxRetries sP hP,
   make_sample_bounded_ok source lower upper nsamples oversample maxRetries sE hE⟩

/-- Evaluation witness for C1 at the constant-zero draw stream on the
interval `[-1, 1]` with `nsamples = 2`. -/
theorem C1_witness :
    ((-1 : ℚ) < 1 ∧ 0 < 2) ∧
    (([0, 0] : List ℚ).length = 2 ∧ ∀ v ∈ ([0, 0] : List ℚ), (-1 : ℚ) ≤ v ∧ v ≤ 1) ∧
    (([0, 0] : List ℚ).length = 2 ∧ ∀ v ∈ ([0, 0] : List ℚ), (-1 : ℚ) ≤ v ∧ v ≤ 1) ∧
    (([0, 0] : List ℚ).length = 2 ∧ ∀ v ∈ ([0, 0] : List ℚ), (-1 : ℚ) ≤ v ∧ v ≤ 1) :=
  ⟨⟨by norm_num, by norm_num⟩,
   C1_bounded_sampler_length_and_bounds (fun _ => 0) (-1) 1 0 0 0 2 1 1
     [0, 0] [0, 0] [0, 0] (by norm_num) (by norm_num) rfl rfl rfl⟩

theorem boundedLoop_reject (source : ℕ → ℚ) (lower upper : ℚ)
    (nsamples oversample : ℕ) (hpos : 0 < nsamples)
    (hrej : ∀ i, ¬(lower ≤ source i ∧ source i ≤ upper)) (fuel : ℕ) :
    ∀ pos, boundedLoop source lower upper nsamples oversample fuel pos []
      = .error .exhaustedRetries := by
  induction fuel with
  | zero => intro pos; rfl
  | succ fuel ih =>
    intro pos
    have hfil : ((List.range (oversample * nsamples)).map
        (fun i => source (pos + i))).filter
        (fun v => decide (lower ≤ v ∧ v ≤ upper)) = [] := by
      apply List.filter_eq_nil_iff.mpr
      intro a ha
      simp only [List.mem_map] at ha
      obtain ⟨i, _, rfl⟩ := ha
      simpa using hrej (pos + i)
    simp only [boundedLoop, hfil, List.append_nil, List.length_nil]
    rw [if_neg (by omega)]
    exact ih _

/-- C2: When every raw draw of the base-distribution stream falls outside
`[lower, upper]` (acceptance probability too low), each bounded sampler
terminates by failing with an exhausted-retries error after its fixed
number of oversampling rounds instead of looping indefinitely. -/
theorem C2_bounded_sampler_exhausted_retries
    (source : ℕ → ℚ) (lower upper sigma a scale : ℚ)
    (nsamples oversample maxRetries : ℕ)
    (hlt : lower < upper) (hpos : 0 < nsamples)
    (hrej : ∀ i, ¬(lower ≤ source i ∧ source i ≤ upper)) :
    make_normal_bounded source lower upper nsamples oversample maxRetries sigma
      = .error .exhaustedRetries ∧
    make_power_bounded source lower upper nsamples oversample maxRetries a
      = .error .exhaustedRetries ∧
    make_exponential_bounded source lower upper nsamples oversample maxRetries scale
      = .error .exhaustedRetries := by
  have h : make_sample_bounded source lower upper nsamples oversample maxRetries
      = .error .exhaustedRetries := by
    rw [make_sample_bounded, if_neg (not_le.mpr hlt)]
    exact boundedLoop_reject source lower upper nsamples oversample hpos hrej
      maxRetries 0
  exact ⟨h, h, h⟩

/-- Evaluation witness for C2: the constant draw `5` never lands in
`[0, 1]`, so the sampler exhausts its retries. -/
theorem C2_witness :
    ((0 : ℚ) < 1 ∧ 0 < 1 ∧ ∀ i : ℕ, ¬((0 : ℚ) ≤ (fun _ : ℕ => (5 : ℚ)) i ∧
      (fun _ : ℕ => (5 : ℚ)) i ≤ 1)) ∧
    make_normal_bounded (fun _ => 5) 0 1 1 1 2 0 = .error .exhaustedRetries ∧
    make_power_bounded (fun _ => 5) 0 1 1 1 2 0 = .error .exhaustedRetries ∧
    make_exponential_bounded (fun _ => 5) 0 1 1 1 2 0 = .error .exhaustedRetries :=
  ⟨⟨by norm_num, by norm_num, fun i => by norm_num⟩,
   C2_bounded_sampler_exhausted_retries (fun _ => 5) 0 1 0 0 0 1 1 2
     (by norm_num) (by norm_num) (fun i => by norm_num)⟩

/-- C3: For every call to a bounded sampler with `lower ≥ upper`, the call
fails immediately with an invalid-argument error and no sequence of any
length is returned. -/
theorem C3_bounded_sampler_invalid_interval
    (source : ℕ → ℚ) (lower upper sigma a scale : ℚ)
    (nsamples oversample maxRetries : ℕ)
    (hge : lower ≥ upper) :
    make_normal_bounded source lower upper nsamples oversample maxRetries sigma
      = .error .invalidArgument ∧
    make_power_bounded source lower upper nsamples oversample maxRetries a
      = .error .invalidArgument ∧
    make_exponential_bounded source lower upper nsamples oversample maxRetries scale
      = .error .invalidArgument := by
  have h : make_sample_bounded source lower upper nsamples oversample maxRetries
      = .error .invalidArgument := by
    rw [make_sample_bounded, if_pos hge]
  exact ⟨h, h, h⟩

/-- Evaluation witness for C3 at the spec's example `lower = 1, upper = 0`. -/
theorem C3_witness :
    ((1 : ℚ) ≥ 0) ∧
    make_normal_bounded (fun _ => 0) 1 0 2 1 1 0 = .error .invalidArgument ∧
    make_power_bounded (fun _ => 0) 1 0 2 1 1 0 = .error .invalidArgument ∧
    make_exponential_bounded (fun _ => 0) 1 0 2 1 1 0 = .error .invalidArgument :=
  ⟨by norm_num,
   C3_bounded_sampler_invalid_interval (fun _ => 0) 1 0 0 0 0 2 1 1 (by norm_num)⟩

theorem seqOptions_eq_some : ∀ (os : List (Option ℚ)) (t : List ℚ),
    seqOptions os = some t →
    t = os.map (fun o => o.getD 0) ∧ ∀ o ∈ os, o.isSome := by
  intro os
  induction os with
  | nil =>
    intro t ht
    simp only [seqOptions, Option.some_inj] at ht
    subst ht
    simp
  | cons o os ih =>
    intro t ht
    cases o with
    | none => simp [seqOptions] at ht
    | some v =>
      simp only [seqOptions] at ht
      rcases hrec : seqOptions os with _ | vs
      · rw [hrec] at ht
        simp at ht
      · rw [hrec] at ht
        simp only [Option.some_inj] at ht
        obtain ⟨h1, h2⟩ := ih vs hrec
        subst ht
        refine ⟨by simp [h1], ?_⟩
        intro o ho
        rcases List.mem_cons.mp ho with rfl | ho
        · simp
        · exact h2 o ho

theorem seqOptions_eq_none_of_mem : ∀ (os : List (Option ℚ)),
    none ∈ os → seqOptions os = none := by
  intro os
  induction os with
  | nil => intro h; simp at h
  | cons o os ih =>
    intro h
    cases o with
    | none => rfl
    | some v =>
      have hmem : (none : Option ℚ) ∈ os := by
        rcases List.mem_cons.mp h with h' | h'
        · exact absurd h' (by simp)
        · exact h'
      simp [seqOptions, ih hmem]

theorem linspace_length (lo hi : ℚ) (n : ℕ) : (linspace lo hi n).length = n := by
  simp [linspace]

theorem linspace_sorted (lo hi : ℚ) (n : ℕ) (h : lo ≤ hi) :
    (linspace lo hi n).Sorted (· ≤ ·) := by
  rw [linspace, List.Sorted, List.pairwise_map]
  refine (List.pairwise_lt_range n).imp_of_mem ?_
  intro i j hi' hj' hij
  have hjn : j < n := List.mem_range.mp hj'
  have h2 : 2 ≤ n := by omega
  have hd : (0 : ℚ) < (n : ℚ) - 1 := by
    have : (2 : ℚ) ≤ (n : ℚ) := by exact_mod_cast h2
    linarith
  have hij' : (i : ℚ) ≤ (j : ℚ) := by exact_mod_cast hij.le
  have hc : (0 : ℚ) ≤ hi - lo := by linarith
  gcongr

theorem linspace_mem_unit (n : ℕ) : ∀ q ∈ linspace 0 1 n, 0 ≤ q ∧ q ≤ 1 := by
  intro q hq
  rw [linspace, List.mem_map] at hq
  obtain ⟨i, hi, rfl⟩ := hq
  have hin : i < n := List.mem_range.mp hi
  simp only [zero_add, sub_zero, one_mul]
  by_cases h2 : 2 ≤ n
  · have hd : (0 : ℚ) < (n : ℚ) - 1 := by
      have : (2 : ℚ) ≤ (n : ℚ) := by exact_mod_cast h2
      linarith
    constructor
    · positivity
    · rw [div_le_one hd]
      have : (i : ℚ) + 1 ≤ (n : ℚ) := by exact_mod_cast hin
      linarith
  · have hn1 : n = 1 := by omega
    have hi0 : i = 0 := by omega
    subst hn1
    subst hi0
    norm_num

theorem sorted_head_le {l : List ℚ} (hs : l.Sorted (· ≤ ·)) (hl : l ≠ []) :
    ∀ w ∈ l, l.head hl ≤ w := by
  cases l with
  | nil => exact absurd rfl hl
  | cons a t =>
    intro w hw
    rcases List.mem_cons.mp hw with rfl | hw
    · exact le_rfl
    · exact (List.sorted_cons.mp hs).1 w hw

theorem sorted_le_getLast : ∀ (l : List ℚ), l.Sorted (· ≤ ·) → ∀ (hl : l ≠ []),
    ∀ w ∈ l, w ≤ l.getLast hl := by
  intro l
  induction l with
  | nil => intro _ hl; exact absurd rfl hl
  | cons a t ih =>
    intro hs hl w hw
    cases t with
    | nil =>
      rcases List.mem_cons.mp hw with rfl | hw
      · simp [List.getLast]
      · simp at hw
    | cons b t2 =>
      have hne : (b :: t2) ≠ [] := by simp
      rw [List.getLast_cons hne]
      rcases List.mem_cons.mp hw with rfl | hw
      · exact le_trans ((List.sorted_cons.mp hs).1 _ (List.getLast_mem hne)) le_rfl
      · exact ih (List.sorted_cons.mp hs).2 hne w hw

theorem make_ok_elim (d : Distribution) (b : ℚ) (n : ℕ) (s : ITFSampler)
    (hs : ITFSampler.make d b n = .ok s) :
    s.x = linspace d.supportLo d.supportHi n ∧
    s.x0 = linspace 0 1 n ∧
    seqOptions ((linspace d.supportLo d.supportHi n).map (d.cdf b)) = some s.cdfTable ∧
    s.b = b ∧ s.cdf_nsteps = n := by
  simp only [ITFSampler.make] at hs
  split at hs
  · exact absurd hs (by simp)
  case h_2 table heq =>
    injection hs with hs
    subst hs
    exact ⟨rfl, rfl, heq, rfl, rfl⟩

theorem interpTwo_left_clamp (p f : ℚ) (fs : List ℚ) (xv : ℚ) (xs : List ℚ)
    (hlen : fs.length = xs.length) (hpf : p ≤ f) :
    interpTwo p (f :: fs) (xv :: xs) = xv := by
  cases fs with
  | nil =>
    cases xs with
    | nil => rfl
    | cons b l => simp at hlen
  | cons f2 fs2 =>
    cases xs with
    | nil => simp at hlen
    | cons x2 xs2 =>
      simp only [interpTwo]
      rw [if_pos hpf]

theorem interpTwo_right_clamp (p : ℚ) : ∀ (t x : List ℚ), t.length = x.length →
    (∀ f ∈ t, f ≤ p) → (∀ f ∈ t.dropLast, f < p) →
    ∀ (hx : x ≠ []), interpTwo p t x = x.getLast hx := by
  intro t
  induction t with
  | nil =>
    intro x hlen _ _ hx
    cases x with
    | nil => exact absurd rfl hx
    | cons a l => simp at hlen
  | cons f1 t1 ih =>
    intro x hlen hle hlt hx
    cases x with
    | nil => exact absurd rfl hx
    | cons x1 xs =>
      cases t1 with
      | nil =>
        cases xs with
        | nil => simp [interpTwo, List.getLast]
        | cons b l => simp at hlen
      | cons f2 t2 =>
        cases xs with
        | nil => simp at hlen
        | cons x2 xs2 =>
          have h1 : f1 < p := hlt f1 (by simp)
          have h2 : f2 ≤ p := hle f2 (by simp)
          simp only [interpTwo]
          rw [if_neg (not_le.mpr h1), if_neg (not_lt.mpr h2)]
          have hne : (x2 :: xs2) ≠ [] := by simp
          rw [ih (x2 :: xs2) (by simpa using hlen)
              (fun f hf => hle f (by simp [hf]))
              (fun f hf => hlt f (by simp at hf ⊢; tauto)) hne]
          exact (List.getLast_cons hne).symm

theorem interpTwo_at_zero (t x : List ℚ) (hlen : t.length = x.length) (hx : x ≠ [])
    (h0 : ∀ f ∈ t, 0 ≤ f) : interpTwo 0 t x = x.head hx := by
  cases t with
  | nil =>
    cases x with
    | nil => exact absurd rfl hx
    | cons a l => simp at hlen
  | cons f fs =>
    cases x with
    | nil => exact absurd rfl hx
    | cons x1 xs =>
      rw [interpTwo_left_clamp 0 f fs x1 xs (by simpa using hlen) (h0 f (by simp))]
      rfl

theorem interpTwo_bounds (p m M : ℚ) : ∀ (t x : List ℚ), t.length = x.length →
    x ≠ [] → x.Chain' (· ≤ ·) → (∀ w ∈ x, m ≤ w) → (∀ w ∈ x, w ≤ M) →
    m ≤ interpTwo p t x ∧ interpTwo p t x ≤ M := by
  intro t
  induction t with
  | nil =>
    intro x hlen hx _ _ _
    cases x with
    | nil => exact absurd rfl hx
    | cons a l => simp at hlen
  | cons f1 t1 ih =>
    intro x hlen hx hch hm hM
    cases x with
    | nil => exact absurd rfl hx
    | cons x1 xs =>
      cases t1 with
      | nil =>
        cases xs with
        | nil =>
          refine ⟨?_, ?_⟩ <;> simp only [interpTwo]
          · exact hm x1 (by simp)
          · exact hM x1 (by simp)
        | cons b l => simp at hlen
      | cons f2 t2 =>
        cases xs with
        | nil => simp at hlen
        | cons x2 xs2 =>
          simp only [interpTwo]
          split
          · exact ⟨hm x1 (by simp), hM x1 (by simp)⟩
          · split
            case isTrue h1 h2 =>
              have hf1 : f1 < p := not_le.mp h1
              have hff : f1 < f2 := lt_trans hf1 h2
              have hx12 : x1 ≤ x2 := (List.chain'_cons.mp hch).1
              have hnn : (0 : ℚ) ≤ x2 - x1 := by linarith
              have hr0 : (0 : ℚ) ≤ (p - f1) / (f2 - f1) :=
                div_nonneg (by linarith) (by linarith)
              have hr1 : (p - f1) / (f2 - f1) ≤ 1 := by
                rw [div_le_one (by linarith)]
                linarith
              have hlow : x1 ≤ x1 + (x2 - x1) * (p - f1) / (f2 - f1) := by
                have : (0 : ℚ) ≤ (x2 - x1) * ((p - f1) / (f2 - f1)) :=
                  mul_nonneg hnn hr0
                rw [mul_div_assoc]
                linarith
              have hhigh : x1 + (x2 - x1) * (p - f1) / (f2 - f1) ≤ x2 := by
                have : (x2 - x1) * ((p - f1) / (f2 - f1)) ≤ x2 - x1 :=
                  mul_le_of_le_one_right hnn hr1
                rw [mul_div_assoc]
                linarith
              exact ⟨le_trans (hm x1 (by simp)) hlow,
                     le_trans hhigh (hM x2 (by simp))⟩
            case isFalse h1 h2 =>
              exact ih (x2 :: xs2) (by simpa using hlen) (by simp)
                (List.chain'_cons.mp hch).2
                (fun w hw => hm w (by simp at hw ⊢; tauto))
                (fun w hw => hM w (by simp at hw ⊢; tauto))

theorem callList_ok_of_valid (s : ITFSampler) : ∀ (ps : List ℚ),
    (∀ p ∈ ps, 0 ≤ p ∧ p ≤ 1) →
    s.callList ps = .ok (ps.map (fun p => interpTwo p s.cdfTable s.x)) := by
  intro ps
  induction ps with
  | nil => intro _; rfl
  | cons p ps ih =>
    intro h
    have hp := h p (by simp)
    have hcall : s.call p = .ok (interpTwo p s.cdfTable s.x) := by
      rw [ITFSampler.call, if_neg]
      rintro (h' | h') <;> linarith [hp.1, hp.2]
    simp only [ITFSampler.callList, hcall, ih (fun q hq => h q (by simp [hq])),
      List.map_cons]

/-- C4: For every `ITFSampler` constructed from a distribution whose CDF is
defined and finite over the chosen grid (and monotone, as every CDF is),
the precomputed CDF lookup table is monotonically non-decreasing along the
domain grid, and the table used after any invocation is the table fixed at
construction. -/
theorem C4_cdf_table_monotone (d : Distribution) (b : ℚ) (n : ℕ) (s : ITFSampler)
    (hmono : ∀ u v cu cv, u ≤ v → d.cdf b u = some cu → d.cdf b v = some cv →
      cu ≤ cv)
    (hsupp : d.supportLo ≤ d.supportHi)
    (hs : ITFSampler.make d b n = .ok s) :
    s.cdfTable.Sorted (· ≤ ·) ∧ ∀ p, ((s.invoke p).2).cdfTable = s.cdfTable := by
  obtain ⟨-, -, htab, -, -⟩ := make_ok_elim d b n s hs
  obtain ⟨heq, hsome⟩ := seqOptions_eq_some _ _ htab
  refine ⟨?_, fun p => rfl⟩
  rw [heq, List.map_map]
  rw [List.Sorted, List.pairwise_map]
  refine (linspace_sorted d.supportLo d.supportHi n hsupp).imp_of_mem ?_
  intro u v hu hv huv
  obtain ⟨cu, hcu⟩ := Option.isSome_iff_exists.mp
    (hsome (d.cdf b u) (List.mem_map.mpr ⟨u, hu, rfl⟩))
  obtain ⟨cv, hcv⟩ := Option.isSome_iff_exists.mp
    (hsome (d.cdf b v) (List.mem_map.mpr ⟨v, hv, rfl⟩))
  simp only [Function.comp_apply, hcu, hcv, Option.getD_some]
  exact hmono u v cu cv huv hcu hcv

/-- Evaluation witness for C4 at the identity-CDF distribution on `[0, 1]`
with a three-point grid. -/
theorem C4_witness :
    (ITFSampler.make demoDist 1 3 = .ok demoSampler ∧
     demoDist.supportLo ≤ demoDist.supportHi) ∧
    demoSampler.cdfTable.Sorted (· ≤ ·) ∧
    ∀ p, ((demoSampler.invoke p).2).cdfTable = demoSampler.cdfTable := by
  have hmk : ITFSampler.make demoDist 1 3 = .ok demoSampler := by
    norm_num [ITFSampler.make, linspace, seqOptions, List.range_succ, demoDist,
      demoSampler]
  have hmono : ∀ u v cu cv : ℚ, u ≤ v → demoDist.cdf 1 u = some cu →
      demoDist.cdf 1 v = some cv → cu ≤ cv := by
    intro u v cu cv huv h1 h2
    simp only [demoDist, Option.some_inj] at h1 h2
    subst h1
    subst h2
    exact huv
  have hsupp : demoDist.supportLo ≤ demoDist.supportHi := by norm_num [demoDist]
  exact ⟨⟨hmk, hsupp⟩, C4_cdf_table_monotone demoDist 1 3 demoSampler hmono hsupp hmk⟩

/-- C5: Invoking an ITF sampler whose grids are those of a genuine CDF
table (sorted grid, CDF values in `[0, 1]`, reaching `1` only at the grid
end) with probability exactly `0` returns the minimum value of the domain
grid, and with probability exactly `1` returns its maximum value. -/
theorem C5_boundary_min_max (s : ITFSampler) (hx : s.x ≠ [])
    (hlen : s.cdfTable.length = s.x.length)
    (hsorted : s.x.Sorted (· ≤ ·))
    (h0 : ∀ f ∈ s.cdfTable, 0 ≤ f)
    (h1 : ∀ f ∈ s.cdfTable, f ≤ 1)
    (hint : ∀ f ∈ s.cdfTable.dropLast, f < 1) :
    (s.call 0 = .ok (s.x.head hx) ∧ ∀ w ∈ s.x, s.x.head hx ≤ w) ∧
    (s.call 1 = .ok (s.x.getLast hx) ∧ ∀ w ∈ s.x, w ≤ s.x.getLast hx) := by
  refine ⟨⟨?_, sorted_head_le hsorted hx⟩, ⟨?_, sorted_le_getLast _ hsorted hx⟩⟩
  · rw [ITFSampler.call, if_neg (by norm_num),
      interpTwo_at_zero s.cdfTable s.x hlen hx h0]
  · rw [ITFSampler.call, if_neg (by norm_num),
      interpTwo_right_clamp 1 s.cdfTable s.x hlen h1 hint hx]

/-- Evaluation witness for C5 at the concrete three-point sampler: the
returned values are the grid minimum `0` and the grid maximum `1`. -/
theorem C5_witness :
    (demoSampler.x ≠ [] ∧
     demoSampler.cdfTable.length = demoSampler.x.length ∧
     demoSampler.x.Sorted (· ≤ ·) ∧
     (∀ f ∈ demoSampler.cdfTable, 0 ≤ f) ∧
     (∀ f ∈ demoSampler.cdfTable, f ≤ 1) ∧
     (∀ f ∈ demoSampler.cdfTable.dropLast, f < 1)) ∧
    demoSampler.call 0 = .ok 0 ∧ demoSampler.call 1 = .ok 1 := by
  have hx : demoSampler.x ≠ [] := by simp [demoSampler]
  have hlen : demoSampler.cdfTable.length = demoSampler.x.length := rfl
  have hsorted : demoSampler.x.Sorted (· ≤ ·) := by
    norm_num [demoSampler, List.sorted_cons]
  have h0 : ∀ f ∈ demoSampler.cdfTable, (0 : ℚ) ≤ f := by
    intro f hf
    simp [demoSampler] at hf
    rcases hf with rfl | rfl | rfl <;> norm_num
  have h1 : ∀ f ∈ demoSampler.cdfTable, f ≤ 1 := by
    intro f hf
    simp [demoSampler] at hf
    rcases hf with rfl | rfl | rfl <;> norm_num
  have hint : ∀ f ∈ demoSampler.cdfTable.dropLast, f < 1 := by
    intro f hf
    simp [demoSampler, List.dropLast] at hf
    rcases hf with rfl | rfl <;> norm_num
  have h := C5_boundary_min_max demoSampler hx hlen hsorted h0 h1 hint
  exact ⟨⟨hx, hlen, hsorted, h0, h1, hint⟩, h.1.1, h.2.1⟩

/-- C6: Constructing two ITF samplers from the identical distribution
object, shape parameter and grid resolution yields identical lookup
tables — equal domain grids `x`, equal CDF tables, indeed equal states
(construction is deterministic). -/
theorem C6_construction_deterministic (d : Distribution) (b : ℚ) (n : ℕ)
    (s1 s2 : ITFSampler)
    (h1 : ITFSampler.make d b n = .ok s1)
    (h2 : ITFSampler.make d b n = .ok s2) :
    s1.x = s2.x ∧ s1.cdfTable = s2.cdfTable ∧ s1 = s2 := by
  have h := h1.symm.trans h2
  injection h with h
  subst h
  exact ⟨rfl, rfl, rfl⟩

/-- Evaluation witness for C6: two constructions over the identity-CDF
distribution agree. -/
theorem C6_witness :
    ITFSampler.make demoDist 1 3 = .ok demoSampler ∧
    demoSampler.x = demoSampler.x ∧ demoSampler.cdfTable = demoSampler.cdfTable ∧
    demoSampler = demoSampler := by
  have hmk : ITFSampler.make demoDist 1 3 = .ok demoSampler := by
    norm_num [ITFSampler.make, linspace, seqOptions, List.range_succ, demoDist,
      demoSampler]
  exact ⟨hmk, C6_construction_deterministic demoDist 1 3 demoSampler demoSampler
    hmk hmk⟩

/-- C7: An invocation with a probability outside `[0, 1]` fails with an
invalid-input error (no value is returned), and a construction over a
distribution whose CDF is undefined / non-finite at some grid point fails
with an invalid-input error. -/
theorem C7_invalid_inputs (s : ITFSampler) (p : ℚ) (d : Distribution) (b : ℚ)
    (n : ℕ)
    (hp : p < 0 ∨ 1 < p)
    (hd : ∃ t ∈ linspace d.supportLo d.supportHi n, d.cdf b t = none) :
    s.call p = .error .invalidInput ∧
    ITFSampler.make d b n = .error .invalidInput := by
  constructor
  · rw [ITFSampler.call, if_pos hp]
  · obtain ⟨t, ht, hnone⟩ := hd
    have hmem : (none : Option ℚ) ∈ (linspace d.supportLo d.supportHi n).map (d.cdf b) :=
      List.mem_map.mpr ⟨t, ht, hnone⟩
    simp only [ITFSampler.make]
    rw [seqOptions_eq_none_of_mem _ hmem]

/-- Evaluation witness for C7: probability `2` is rejected, and building a
sampler over the nowhere-defined CDF fails. -/
theorem C7_witness :
    (((2 : ℚ) < 0 ∨ (1 : ℚ) < 2) ∧
     (∃ t ∈ linspace noneDist.supportLo noneDist.supportHi 2,
        noneDist.cdf 1 t = none)) ∧
    demoSampler.call 2 = .error .invalidInput ∧
    ITFSampler.make noneDist 1 2 = .error .invalidInput := by
  have hp : (2 : ℚ) < 0 ∨ (1 : ℚ) < 2 := Or.inr (by norm_num)
  have hd : ∃ t ∈ linspace noneDist.supportLo noneDist.supportHi 2,
      noneDist.cdf 1 t = none := by
    refine ⟨0, ?_, rfl⟩
    norm_num [noneDist, linspace, List.range_succ]
  exact ⟨⟨hp, hd⟩, C7_invalid_inputs demoSampler 2 noneDist 1 2 hp hd⟩

/-- C8: For every sampler whose grids are those of a constructed lookup
table (sorted, aligned lengths) and every valid probability `p ∈ [0, 1]`,
the invocation succeeds and the returned domain value lies between the
minimum (head) and maximum (last) of the stored `x` grid. -/
theorem C8_output_within_grid_range (s : ITFSampler) (p : ℚ) (hx : s.x ≠ [])
    (hlen : s.cdfTable.length = s.x.length)
    (hsorted : s.x.Sorted (· ≤ ·))
    (hp0 : 0 ≤ p) (hp1 : p ≤ 1) :
    ∃ v, s.call p = .ok v ∧
      (∀ w ∈ s.x, s.x.head hx ≤ w) ∧ (∀ w ∈ s.x, w ≤ s.x.getLast hx) ∧
      s.x.head hx ≤ v ∧ v ≤ s.x.getLast hx := by
  have hch : s.x.Chain' (· ≤ ·) := List.chain'_iff_pairwise.mpr hsorted
  have hm := sorted_head_le hsorted hx
  have hM := sorted_le_getLast _ hsorted hx
  obtain ⟨hb1, hb2⟩ := interpTwo_bounds p (s.x.head hx) (s.x.getLast hx)
    s.cdfTable s.x hlen hx hch hm hM
  refine ⟨interpTwo p s.cdfTable s.x, ?_, hm, hM, hb1, hb2⟩
  rw [ITFSampler.call, if_neg]
  rintro (h' | h') <;> linarith

/-- Evaluation witness for C8 at probability `1/4` on the concrete
three-point sampler: the returned value lies in `[0, 1]`. -/
theorem C8_witness :
    (demoSampler.x ≠ [] ∧
     demoSampler.cdfTable.length = demoSampler.x.length ∧
     demoSampler.x.Sorted (· ≤ ·) ∧ (0 : ℚ) ≤ 1/4 ∧ (1/4 : ℚ) ≤ 1) ∧
    ∃ v, demoSampler.call (1/4) = .ok v ∧ 0 ≤ v ∧ v ≤ 1 := by
  have hx : demoSampler.x ≠ [] := by simp [demoSampler]
  have hlen : demoSampler.cdfTable.length = demoSampler.x.length := rfl
  have hsorted : demoSampler.x.Sorted (· ≤ ·) := by
    norm_num [demoSampler, List.sorted_cons]
  have hp0 : (0 : ℚ) ≤ 1/4 := by norm_num
  have hp1 : (1/4 : ℚ) ≤ 1 := by norm_num
  obtain ⟨v, hcall, -, -, hlo, hhi⟩ :=
    C8_output_within_grid_range demoSampler (1/4) hx hlen hsorted hp0 hp1
  refine ⟨⟨hx, hlen, hsorted, hp0, hp1⟩, v, hcall, ?_, ?_⟩
  · simpa [demoSampler] using hlo
  · simpa [demoSampler] using hhi

/-- C9: Invocation leaves the sampler state unchanged — the state after an
invocation equals the state before it, the inspectable attributes `x`,
`x0`, `b`, `cdf_nsteps` and the lookup table are untouched, and the only
output of the invocation is the computed value. -/
theorem C9_invocation_preserves_state (s : ITFSampler) (p : ℚ) :
    (s.invoke p).2 = s ∧ (s.invoke p).2.x = s.x ∧ (s.invoke p).2.x0 = s.x0 ∧
    (s.invoke p).2.cdfTable = s.cdfTable ∧ (s.invoke p).2.b = s.b ∧
    (s.invoke p).2.cdf_nsteps = s.cdf_nsteps ∧ (s.invoke p).1 = s.call p :=
  ⟨rfl, rfl, rfl, rfl, rfl, rfl, rfl⟩

/-- C10: For every constructed sampler, the probability grid `x0` and the
domain grid `x` both have `cdf_nsteps` entries, and invoking the sampler
on `x0` returns one output per input — a sequence whose length equals the
length of `x`. -/
theorem C10_grid_alignment (d : Distribution) (b : ℚ) (n : ℕ) (s : ITFSampler)
    (hs : ITFSampler.make d b n = .ok s) :
    s.x0.length = n ∧ s.x.length = n ∧ s.x0.length = s.x.length ∧
    s.cdf_nsteps = n ∧
    ∃ ys, s.callList s.x0 = .ok ys ∧ ys.length = s.x.length := by
  obtain ⟨hx, hx0, -, -, hn⟩ := make_ok_elim d b n s hs
  have hlen0 : s.x0.length = n := by rw [hx0, linspace_length]
  have hlenx : s.x.length = n := by rw [hx, linspace_length]
  refine ⟨hlen0, hlenx, by rw [hlen0, hlenx], hn, ?_⟩
  refine ⟨s.x0.map (fun p => interpTwo p s.cdfTable s.x), ?_, ?_⟩
  · exact callList_ok_of_valid s s.x0 (by rw [hx0]; exact linspace_mem_unit n)
  · rw [List.length_map, hlen0, hlenx]

/-- Evaluation witness for C10 on the concrete three-point construction. -/
theorem C10_witness :
    ITFSampler.make demoDist 1 3 = .ok demoSampler ∧
    demoSampler.x0.length = 3 ∧ demoSampler.x.length = 3 ∧
    demoSampler.x0.length = demoSampler.x.length ∧
    demoSampler.cdf_nsteps = 3 ∧
    ∃ ys, demoSampler.callList demoSampler.x0 = .ok ys ∧
      ys.length = demoSampler.x.length := by
  have hmk : ITFSampler.make demoDist 1 3 = .ok demoSampler := by
    norm_num [ITFSampler.make, linspace, seqOptions, List.range_succ, demoDist,
      demoSampler]
  exact ⟨hmk, C10_grid_alignment demoDist 1 3 demoSampler hmk⟩

end DatatoolsBdh
